import Mathlib

/-!
Verification of the block-structured rich-text editor
(`src/components/RichEditor.tsx`) of the blog authoring application.

The editor keeps an externally owned HTML `content` string in sync with a
live contenteditable surface, tracks the block containing the caret, and
implements structural block operations (insert-next, delete, duplicate,
move up/down, drag-and-drop reorder), a slash-triggered block menu, a
selection bubble menu with AI actions, an inline-code toggle and derived
word-count / reading-time statistics.

Each section below shallowly embeds the relevant handler of
`RichEditor.tsx` as an executable Lean function and proves (or refutes)
the specification claims about it.
-/

namespace RichEditor

/-! ## Content synchronizer (RichEditor.tsx, useEffect lines 73-92)

The effect reads `currentHTML = editorRef.current.innerHTML`, compares it
with the incoming `content` prop and decides whether to overwrite the DOM:

```
if (content !== currentHTML) {
  const isFocused = document.activeElement === editorRef.current;
  if (!isFocused || Math.abs(content.length - currentHTML.length) > 10 || content === '') {
    editorRef.current.innerHTML = content;
  }
}
```
-/

/-- `Math.abs(content.length - currentHTML.length)`: absolute length
difference of the two strings. -/
def lengthDelta (a b : String) : Nat :=
  Int.natAbs ((a.length : Int) - (b.length : Int))

/-- Embedding of the overwrite decision of the synchronization `useEffect`:
`true` iff the effect assigns `editorRef.current.innerHTML = content`. -/
def syncOverwrites (content currentHTML : String) (isFocused : Bool) : Bool :=
  if content = currentHTML then false
  else !isFocused || decide (lengthDelta content currentHTML > 10) || decide (content = "")

/-- The DOM serialization after the synchronization effect has run. -/
def syncResult (content currentHTML : String) (isFocused : Bool) : String :=
  if syncOverwrites content currentHTML isFocused then content else currentHTML

/-- **C1.** Content synchronizer decision rule: identical content is a
no-op; an unfocused surface is always overwritten; a focused surface is
overwritten iff the incoming string is empty or the length delta exceeds
10; the focused pair (`"<p>Hell</p>"` incoming, `"<p>Hello</p>"` current)
is not overwritten; incoming `""` always leaves an empty DOM. -/
theorem sync_decision_rule (content currentHTML : String) (isFocused : Bool) :
    (content = currentHTML →
      syncOverwrites content currentHTML isFocused = false ∧
      syncResult content currentHTML isFocused = currentHTML)
    ∧ (syncResult content currentHTML false = content)
    ∧ (content ≠ currentHTML →
        (syncOverwrites content currentHTML true = true ↔
          content = "" ∨ lengthDelta content currentHTML > 10))
    ∧ (syncResult ("<p>Hell</p>") ("<p>Hello</p>") true = "<p>Hello</p>")
    ∧ (syncResult ("") currentHTML isFocused = "") := by
  refine ⟨?_, ?_, ?_, ?_, ?_⟩
  · intro h
    simp [syncOverwrites, syncResult, h]
  · by_cases h : content = currentHTML
    · simp [syncOverwrites, syncResult, h]
    · simp [syncOverwrites, syncResult, h]
  · intro h
    simp [syncOverwrites, h]
    tauto
  · decide
  · by_cases h : currentHTML = ""
    · simp [syncOverwrites, syncResult, h]
    · have hne : ("" : String) ≠ currentHTML := fun hc => h hc.symm
      simp [syncOverwrites, syncResult, hne]

/-- Witness for C1: evaluating the rule at concrete inputs (an unfocused
editor receives `"<p>New</p>"` over `"<p>Old</p>"` and is overwritten; a
focused editor with a 1-character delta keeps its DOM). -/
theorem sync_decision_rule_witness :
    syncResult ("<p>New</p>") ("<p>Old</p>") false = "<p>New</p>" ∧
    (syncOverwrites ("<p>Hell</p>") ("<p>Hello</p>") true = true ↔
      ("<p>Hell</p>" : String) = "" ∨ lengthDelta ("<p>Hell</p>") ("<p>Hello</p>") > 10) :=
  ⟨(sync_decision_rule ("<p>New</p>") ("<p>Old</p>") false).2.1,
   (sync_decision_rule ("<p>Hell</p>") ("<p>Hello</p>") true).2.2.1 (by decide)⟩

/-! ## Block model

A document is the ordered list of the editable root's direct children.
`Block.id` models DOM node identity (`cloneNode` yields a fresh identity;
`insertBefore` moves a node, identified by identity, within its parent).
In a real DOM all identities are distinct; theorems that need this carry
a `Nodup` hypothesis on the ids.
-/

/-- A top-level block element of the editable root. -/
structure Block where
  id : Nat
  tag : String
  inner : String
deriving DecidableEq, Repr

/-- `outerHTML` of a block. -/
def Block.render (b : Block) : String :=
  "<" ++ b.tag ++ ">" ++ b.inner ++ "</" ++ b.tag ++ ">"

/-- `editorRef.current.innerHTML`: concatenation of the children's
serializations. -/
def serializeDoc (blocks : List Block) : String :=
  String.join (blocks.map Block.render)

/-- Detaching a node from its parent (first step of `insertBefore` when
the node is already in the tree). -/
def removeNode (blocks : List Block) (node : Block) : List Block :=
  blocks.filter (fun b => b.id ≠ node.id)

/-- Insert `node` immediately before the child with identity `refId`
(appends when the reference is absent; in the DOM that case throws, and
no handler below reaches it). -/
def insertBeforeId : List Block → Block → Nat → List Block
  | [], node, _ => [node]
  | x :: rest, node, refId =>
    if x.id = refId then node :: x :: rest else x :: insertBeforeId rest node refId

/-- `b.previousSibling` among `blocks` (auxiliary: `p` is the child just
before the current scan position). -/
def prevSiblingAux (p : Block) : List Block → Block → Option Block
  | [], _ => none
  | x :: rest, b => if x.id = b.id then some p else prevSiblingAux x rest b

/-- `b.previousSibling` among the children `blocks`. -/
def prevSibling (blocks : List Block) (b : Block) : Option Block :=
  match blocks with
  | [] => none
  | x :: rest => if x.id = b.id then none else prevSiblingAux x rest b

/-- `b.nextSibling` among the children `blocks`. -/
def nextSibling : List Block → Block → Option Block
  | [], _ => none
  | [_], _ => none
  | x :: y :: rest, b => if x.id = b.id then some y else nextSibling (y :: rest) b

/-- `parent.insertBefore(node, ref)` per the WHATWG pre-insert algorithm:
when the reference child is `node` itself, the reference is first
replaced by `node`'s next sibling; then `node` is detached and inserted
before the reference (appended when the reference is null). -/
def domInsertBefore (blocks : List Block) (node : Block) (ref : Option Nat) : List Block :=
  let ref2 : Option Nat :=
    if ref = some node.id then (nextSibling blocks node).map Block.id else ref
  match ref2 with
  | none => removeNode blocks node ++ [node]
  | some r => insertBeforeId (removeNode blocks node) node r

/-- Outcome of a structural handler: the new children list, the `onChange`
payloads emitted before the handler returns (in order), and whether
`updateActiveBlock` is (re-)invoked afterwards (directly or via the
handler's `setTimeout`). -/
structure ActionResult where
  blocks : List Block
  emitted : List String
  recomputeActive : Bool
deriving DecidableEq, Repr

/-- The four side-menu block actions of `handleBlockAction`. -/
inductive BlockAction
  | delete
  | duplicate
  | up
  | down
deriving DecidableEq, Repr

/-- Embedding of `handleBlockAction` (RichEditor.tsx lines 542-560).
`active` is the current `activeBlock` state; `freshId` is the DOM identity
of the node produced by `cloneNode` in the `duplicate` case.

```
if (!activeBlock || !editorRef.current) return;
switch(action) {
  case 'delete': activeBlock.remove(); break;
  case 'duplicate':
      const clone = activeBlock.cloneNode(true);
      editorRef.current.insertBefore(clone, activeBlock.nextSibling); break;
  case 'up':
      if (activeBlock.previousSibling) editorRef.current.insertBefore(activeBlock, activeBlock.previousSibling); break;
  case 'down':
      if (activeBlock.nextSibling) editorRef.current.insertBefore(activeBlock.nextSibling, activeBlock); break;
}
onChange(editorRef.current.innerHTML);
setShowBlockOptions(false);
setTimeout(updateActiveBlock, 0);
```
-/
def handleBlockAction (blocks : List Block) (active : Option Block) (freshId : Nat)
    (action : BlockAction) : ActionResult :=
  match active with
  | none => ⟨blocks, [], false⟩
  | some ab =>
    let blocks1 :=
      match action with
      | .delete => removeNode blocks ab
      | .duplicate =>
          domInsertBefore blocks { ab with id := freshId } ((nextSibling blocks ab).map Block.id)
      | .up =>
          match prevSibling blocks ab with
          | none => blocks
          | some p => domInsertBefore blocks ab (some p.id)
      | .down =>
          match nextSibling blocks ab with
          | none => blocks
          | some n => domInsertBefore blocks n (some ab.id)
    ⟨blocks1, [serializeDoc blocks1], true⟩

/-- Outcome of `handleAddNextLine`: new children, caret location (id of
the block that now holds the caret), slash-menu flag, `onChange`
payloads, and whether `updateActiveBlock` ran. -/
structure InsertResult where
  blocks : List Block
  caret : Option Nat
  showMenu : Bool
  emitted : List String
  recomputeActive : Bool
deriving DecidableEq, Repr

/-- Embedding of `handleAddNextLine` (RichEditor.tsx lines 381-405): create
a `<p><br></p>` block, insert it before `activeBlock.nextSibling` (append
when the active block is last), move the caret into it, recompute the
active block, and open the slash menu. The handler contains no `onChange`
call. `caret0`/`showMenu0` are the pre-handler caret and menu state,
returned unchanged on the early-return path. -/
def handleAddNextLine (blocks : List Block) (active : Option Block) (caret0 : Option Nat)
    (showMenu0 : Bool) (freshId : Nat) : InsertResult :=
  match active with
  | none => ⟨blocks, caret0, showMenu0, [], false⟩
  | some ab =>
    let newBlock : Block := ⟨freshId, "p", "<br>"⟩
    let blocks1 :=
      match nextSibling blocks ab with
      | some nxt => insertBeforeId blocks newBlock nxt.id
      | none => blocks ++ [newBlock]
    ⟨blocks1, some freshId, true, [], true⟩

/-- Orientation of a resolved drop target. -/
inductive DropPos
  | before
  | after
deriving DecidableEq, Repr

/-- `document.getElementById`-style lookup by node identity. -/
def findById (blocks : List Block) (i : Nat) : Option Block :=
  blocks.find? (fun b => b.id = i)

/-- Embedding of `handleDrop` (RichEditor.tsx lines 210-226): with a
resolved `dropTargetInfo`, reinsert the dragged block before the target
(orientation `before`) or before the target's next sibling (orientation
`after`; appends when the target is last), then emit `onChange` and
recompute the active block. Without drag state, an active block, or a
resolved target, only `handleDragEnd` runs: no mutation, no emission. -/
def handleDrop (blocks : List Block) (isDragging : Bool) (active : Option Block)
    (dropTarget : Option (Nat × DropPos)) : ActionResult :=
  match isDragging, active, dropTarget with
  | true, some ab, some (targetId, pos) =>
      let ref : Option Nat :=
        match pos with
        | .before => some targetId
        | .after => (findById blocks targetId).bind (fun t => (nextSibling blocks t).map Block.id)
      let blocks1 := domInsertBefore blocks ab ref
      ⟨blocks1, [serializeDoc blocks1], true⟩
  | _, _, _ => ⟨blocks, [], false⟩

/-- The first child has no previous sibling. -/
theorem prevSibling_head (ab : Block) (rest : List Block) :
    prevSibling (ab :: rest) ab = none := by
  simp [prevSibling]

/-- The last child has no next sibling (ids are distinct in a real DOM,
whence the freshness hypothesis on the preceding children). -/
theorem nextSibling_last (init : List Block) (ab : Block)
    (h : ab.id ∉ init.map Block.id) : nextSibling (init ++ [ab]) ab = none := by
  induction init with
  | nil => simp [nextSibling]
  | cons x init ih =>
    have hx : x.id ≠ ab.id := by
      intro hc
      exact h (by simp [hc])
    have hrest : ab.id ∉ init.map Block.id := fun hc => h (by simp [hc])
    cases hinit : init ++ [ab] with
    | nil => exact absurd hinit (by simp)
    | cons y rest =>
      have := ih hrest
      rw [hinit] at this
      simp only [List.cons_append, hinit, nextSibling, hx, if_false]
      exact this

/-- **C6.** Invalid structural operations are no-ops: move-up on the first
block and move-down on the last block leave the children unchanged, and a
drop without a resolved target leaves the document unchanged and emits
nothing; all three return normally (no error path exists). -/
theorem invalid_ops_are_noops (blocks rest init : List Block) (ab : Block) (freshId : Nat) :
    (blocks = ab :: rest →
      (handleBlockAction blocks (some ab) freshId BlockAction.up).blocks = blocks)
    ∧ (blocks = init ++ [ab] → ab.id ∉ init.map Block.id →
      (handleBlockAction blocks (some ab) freshId BlockAction.down).blocks = blocks)
    ∧ (∀ dragging active,
        handleDrop blocks dragging active none = ⟨blocks, [], false⟩) := by
  refine ⟨?_, ?_, ?_⟩
  · intro h
    subst h
    simp [handleBlockAction, prevSibling_head]
  · intro h hfresh
    subst h
    simp [handleBlockAction, nextSibling_last init ab hfresh]
  · intro dragging active
    cases dragging <;> cases active <;> rfl

/-- Witness for C6 at a concrete three-block document. -/
theorem invalid_ops_are_noops_witness :
    (handleBlockAction [⟨0, "p", "A"⟩, ⟨1, "p", "B"⟩] (some ⟨0, "p", "A"⟩) 5
        BlockAction.up).blocks = [⟨0, "p", "A"⟩, ⟨1, "p", "B"⟩] ∧
    (handleBlockAction [⟨0, "p", "A"⟩, ⟨1, "p", "B"⟩] (some ⟨1, "p", "B"⟩) 5
        BlockAction.down).blocks = [⟨0, "p", "A"⟩, ⟨1, "p", "B"⟩] ∧
    handleDrop [⟨0, "p", "A"⟩] true (some ⟨0, "p", "A"⟩) none = ⟨[⟨0, "p", "A"⟩], [], false⟩ := by
  refine ⟨?_, ?_, ?_⟩
  · exact (invalid_ops_are_noops [⟨0, "p", "A"⟩, ⟨1, "p", "B"⟩] [⟨1, "p", "B"⟩] [] ⟨0, "p", "A"⟩ 5).1 rfl
  · exact (invalid_ops_are_noops [⟨0, "p", "A"⟩, ⟨1, "p", "B"⟩] [] [⟨0, "p", "A"⟩] ⟨1, "p", "B"⟩ 5).2.1 rfl (by decide)
  · exact (invalid_ops_are_noops [⟨0, "p", "A"⟩] [] [] ⟨0, "p", "A"⟩ 5).2.2 true (some ⟨0, "p", "A"⟩)

/-- The next sibling of `ab` in `l1 ++ ab :: n :: l2` is `n` (given that
`ab`'s identity does not occur earlier). -/
theorem nextSibling_append (l1 : List Block) (ab n : Block) (l2 : List Block)
    (h : ab.id ∉ l1.map Block.id) : nextSibling (l1 ++ ab :: n :: l2) ab = some n := by
  induction l1 with
  | nil => simp [nextSibling]
  | cons x l1 ih =>
    have hx : x.id ≠ ab.id := by
      intro hc
      exact h (by simp [hc])
    have hrest : ab.id ∉ l1.map Block.id := fun hc => h (by simp [hc])
    cases hinit : l1 ++ ab :: n :: l2 with
    | nil => exact absurd hinit (by simp)
    | cons y rest =>
      have := ih hrest
      rw [hinit] at this
      simp only [List.cons_append, hinit, nextSibling, hx, if_false]
      exact this

/-- Inserting before the first occurrence of `tgt.id` places the node
immediately before `tgt` (given `tgt`'s identity does not occur earlier). -/
theorem insertBeforeId_append (l1 : List Block) (tgt : Block) (l2 : List Block) (node : Block)
    (h : tgt.id ∉ l1.map Block.id) :
    insertBeforeId (l1 ++ tgt :: l2) node tgt.id = l1 ++ node :: tgt :: l2 := by
  induction l1 with
  | nil => simp [insertBeforeId]
  | cons x l1 ih =>
    have hx : x.id ≠ tgt.id := by
      intro hc
      exact h (by simp [hc])
    have hrest : tgt.id ∉ l1.map Block.id := fun hc => h (by simp [hc])
    simp only [List.cons_append, insertBeforeId, hx, if_false]
    exact congrArg (List.cons x) (ih hrest)

/-- **C2 counterexample.** Insert-next mutates the DOM (a `<p><br></p>`
block appears after the active block) yet its `emitted` list is empty:
`handleAddNextLine` contains no `onChange` call, contradicting the claim
that every block operation re-emits content before the handler returns. -/
theorem insert_next_no_emit_cex :
    (handleAddNextLine [⟨0, "p", "A"⟩] (some ⟨0, "p", "A"⟩) (some 0) false 1).emitted = [] ∧
    (handleAddNextLine [⟨0, "p", "A"⟩] (some ⟨0, "p", "A"⟩) (some 0) false 1).blocks =
      [⟨0, "p", "A"⟩, ⟨1, "p", "<br>"⟩] := by
  decide

/-- **C2 (amended).** Delete, duplicate, move up, move down and drag-drop
reorder each mutate the DOM synchronously, emit exactly one `onChange`
carrying the new serialization before returning, and recompute the active
block; insert-next creates an empty paragraph immediately after the
active block (appending when it is last), moves the caret into it, opens
the slash menu and recomputes the active block, but emits no `onChange`.
-/
theorem block_ops_emission (blocks l1 l2 : List Block) (ab : Block)
    (freshId : Nat) (caret0 : Option Nat) (sm : Bool) :
    (∀ action : BlockAction,
        (handleBlockAction blocks (some ab) freshId action).emitted =
          [serializeDoc (handleBlockAction blocks (some ab) freshId action).blocks] ∧
        (handleBlockAction blocks (some ab) freshId action).recomputeActive = true)
    ∧ (∀ (targetId : Nat) (pos : DropPos),
        (handleDrop blocks true (some ab) (some (targetId, pos))).emitted =
          [serializeDoc (handleDrop blocks true (some ab) (some (targetId, pos))).blocks] ∧
        (handleDrop blocks true (some ab) (some (targetId, pos))).recomputeActive = true)
    ∧ (blocks = l1 ++ ab :: l2 → (blocks.map Block.id).Nodup →
        handleAddNextLine blocks (some ab) caret0 sm freshId =
          ⟨l1 ++ ab :: ⟨freshId, "p", "<br>"⟩ :: l2, some freshId, true, [], true⟩) := by
  refine ⟨?_, ?_, ?_⟩
  · intro action
    cases action <;> simp [handleBlockAction]
  · intro targetId pos
    simp [handleDrop]
  · intro hsplit hnodup
    subst hsplit
    have hab : ab.id ∉ l1.map Block.id := by
      simp only [List.map_append, List.map_cons, List.nodup_append] at hnodup
      intro hc
      exact hnodup.2.2 hc (by simp)
    cases l2 with
    | nil =>
      have hnext : nextSibling (l1 ++ [ab]) ab = none := nextSibling_last l1 ab hab
      simp [handleAddNextLine, hnext]
    | cons n l2t =>
      have hn : n.id ∉ l1.map Block.id := by
        simp only [List.map_append, List.map_cons, List.nodup_append] at hnodup
        intro hc
        exact hnodup.2.2 hc (by simp)
      have hnab : n.id ≠ ab.id := by
        simp only [List.map_append, List.map_cons, List.nodup_append,
          List.nodup_cons, List.mem_cons] at hnodup
        intro hc
        exact hnodup.2.1.1 (Or.inl hc.symm)
      have hnext : nextSibling (l1 ++ ab :: n :: l2t) ab = some n :=
        nextSibling_append l1 ab n l2t hab
      have hins : insertBeforeId (l1 ++ ab :: n :: l2t) ⟨freshId, "p", "<br>"⟩ n.id =
          l1 ++ ab :: ⟨freshId, "p", "<br>"⟩ :: n :: l2t := by
        have : l1 ++ ab :: n :: l2t = (l1 ++ [ab]) ++ n :: l2t := by simp
        rw [this]
        have hn2 : n.id ∉ (l1 ++ [ab]).map Block.id := by
          simp only [List.map_append, List.map_cons, List.map_nil, List.mem_append,
            List.mem_cons, List.mem_singleton]
          intro hc
          rcases hc with hc | hc
          · exact hn hc
          · rcases hc with hc | hc
            · exact hnab hc
            · exact absurd hc (List.not_mem_nil _)
        rw [insertBeforeId_append (l1 ++ [ab]) n l2t ⟨freshId, "p", "<br>"⟩ hn2]
        simp
      simp [handleAddNextLine, hnext, hins]

/-- Witness for C2 (amended) on a concrete two-block document: deleting
emits once, and insert-next inserts the paragraph between the two blocks
with caret and menu set and nothing emitted. -/
theorem block_ops_emission_witness :
    (handleBlockAction [⟨0, "p", "A"⟩, ⟨1, "p", "B"⟩] (some ⟨0, "p", "A"⟩) 7
        BlockAction.delete).emitted =
      [serializeDoc (handleBlockAction [⟨0, "p", "A"⟩, ⟨1, "p", "B"⟩] (some ⟨0, "p", "A"⟩) 7
        BlockAction.delete).blocks] ∧
    handleAddNextLine [⟨0, "p", "A"⟩, ⟨1, "p", "B"⟩] (some ⟨0, "p", "A"⟩) none false 7 =
      ⟨[⟨0, "p", "A"⟩, ⟨7, "p", "<br>"⟩, ⟨1, "p", "B"⟩], some 7, true, [], true⟩ :=
  ⟨((block_ops_emission [⟨0, "p", "A"⟩, ⟨1, "p", "B"⟩] [] [⟨1, "p", "B"⟩] ⟨0, "p", "A"⟩ 7
      none false).1 BlockAction.delete).1,
   (block_ops_emission [⟨0, "p", "A"⟩, ⟨1, "p", "B"⟩] [] [⟨1, "p", "B"⟩] ⟨0, "p", "A"⟩ 7
      none false).2.2 rfl (by decide)⟩

/-! ## Drag-over geometry (RichEditor.tsx, handleDragOver lines 172-208)

```
const clientY = e.clientY;
const children = Array.from(editorRef.current.children);
let closest = null; let minDiff = Infinity;
children.forEach(child => {
    if (child === activeBlock) return;
    const rect = child.getBoundingClientRect();
    const center = rect.top + rect.height / 2;
    const diff = Math.abs(clientY - center);
    if (diff < minDiff && diff < 150) { minDiff = diff; closest = child; }
});
if (closest) {
    const isBefore = clientY < (rect.top + rect.height / 2);
    setDropTargetInfo({ el: closest, pos: isBefore ? 'before' : 'after' });
} else { setDropTargetInfo(null); }
```
-/

/-- Layout of one top-level child: DOM identity plus its bounding
rectangle's `top` and `height`. -/
structure BlockGeom where
  id : Nat
  top : ℚ
  height : ℚ
deriving DecidableEq, Repr

/-- `rect.top + rect.height / 2`: the vertical center of a child. -/
def centerOf (g : BlockGeom) : ℚ := g.top + g.height / 2

/-- One iteration of the `children.forEach` scan. The accumulator is the
current `(closest, minDiff)` pair; `none` models
`closest = null, minDiff = Infinity`. -/
def scanStep (clientY : ℚ) (srcId : Nat) (acc : Option (BlockGeom × ℚ)) (child : BlockGeom) :
    Option (BlockGeom × ℚ) :=
  if child.id = srcId then acc
  else
    let diff := |clientY - centerOf child|
    match acc with
    | none => if diff < 150 then some (child, diff) else none
    | some (cb, minDiff) =>
        if diff < minDiff ∧ diff < 150 then some (child, diff) else some (cb, minDiff)

/-- The full scan over all children. -/
def findClosest (clientY : ℚ) (srcId : Nat) (children : List BlockGeom) :
    Option (BlockGeom × ℚ) :=
  children.foldl (scanStep clientY srcId) none

/-- Embedding of `handleDragOver`: the `dropTargetInfo` it stores
(target child plus orientation), or `none` when no child qualifies. -/
def handleDragOver (clientY : ℚ) (srcId : Nat) (children : List BlockGeom) :
    Option (BlockGeom × DropPos) :=
  match findClosest clientY srcId children with
  | none => none
  | some (c, _) =>
      some (c, if clientY < centerOf c then DropPos.before else DropPos.after)

/-- Soundness invariant of the scan accumulator: a stored candidate is a
non-source child at its true distance, below the 150 px threshold. -/
def accGood (clientY : ℚ) (srcId : Nat) (acc : Option (BlockGeom × ℚ)) : Prop :=
  ∀ cb d, acc = some (cb, d) → cb.id ≠ srcId ∧ d = |clientY - centerOf cb| ∧ d < 150

theorem scanStep_cases (clientY : ℚ) (srcId : Nat) (acc : Option (BlockGeom × ℚ))
    (c : BlockGeom) :
    scanStep clientY srcId acc c = acc ∨
    (c.id ≠ srcId ∧ scanStep clientY srcId acc c = some (c, |clientY - centerOf c|)) := by
  by_cases hc : c.id = srcId
  · left
    simp [scanStep, hc]
  · cases acc with
    | none =>
      by_cases hd : |clientY - centerOf c| < 150
      · right
        exact ⟨hc, by simp [scanStep, hc, hd]⟩
      · left
        simp [scanStep, hc, hd]
    | some p =>
      obtain ⟨cb, d⟩ := p
      by_cases hd : |clientY - centerOf c| < d ∧ |clientY - centerOf c| < 150
      · right
        exact ⟨hc, by simp [scanStep, hc, hd]⟩
      · left
        simp [scanStep, hc, hd]

theorem scanStep_good (clientY : ℚ) (srcId : Nat) (acc : Option (BlockGeom × ℚ))
    (c : BlockGeom) (h : accGood clientY srcId acc) :
    accGood clientY srcId (scanStep clientY srcId acc c) := by
  by_cases hc : c.id = srcId
  · simpa [scanStep, hc] using h
  · cases acc with
    | none =>
      by_cases hd : |clientY - centerOf c| < 150
      · intro cb d heq
        simp [scanStep, hc, hd] at heq
        exact ⟨heq.1 ▸ hc, by simp [heq.1.symm, heq.2.symm], heq.2 ▸ hd⟩
      · intro cb d heq
        simp [scanStep, hc, hd] at heq
    | some p =>
      obtain ⟨cb0, d0⟩ := p
      by_cases hd : |clientY - centerOf c| < d0 ∧ |clientY - centerOf c| < 150
      · intro cb d heq
        simp [scanStep, hc, hd] at heq
        exact ⟨heq.1 ▸ hc, by simp [heq.1.symm, heq.2.symm], heq.2 ▸ hd.2⟩
      · intro cb d heq
        simp [scanStep, hc, hd] at heq
        exact heq.1 ▸ heq.2 ▸ h cb0 d0 rfl

theorem scanStep_some (clientY : ℚ) (srcId : Nat) (acc : Option (BlockGeom × ℚ))
    (c : BlockGeom) (a0 : BlockGeom) (d0 : ℚ) (h : acc = some (a0, d0)) :
    ∃ a1 d1, scanStep clientY srcId acc c = some (a1, d1) ∧ d1 ≤ d0 := by
  subst h
  by_cases hc : c.id = srcId
  · exact ⟨a0, d0, by simp [scanStep, hc], le_refl _⟩
  · by_cases hd : |clientY - centerOf c| < d0 ∧ |clientY - centerOf c| < 150
    · exact ⟨c, |clientY - centerOf c|, by simp [scanStep, hc, hd], le_of_lt hd.1⟩
    · exact ⟨a0, d0, by simp [scanStep, hc, hd], le_refl _⟩

theorem scanStep_none (clientY : ℚ) (srcId : Nat) (acc : Option (BlockGeom × ℚ))
    (c : BlockGeom) (h : scanStep clientY srcId acc c = none) :
    acc = none ∧ (c.id ≠ srcId → 150 ≤ |clientY - centerOf c|) := by
  by_cases hc : c.id = srcId
  · simp [scanStep, hc] at h
    exact ⟨h, fun hcc => absurd hc hcc⟩
  · cases acc with
    | none =>
      by_cases hd : |clientY - centerOf c| < 150
      · simp [scanStep, hc, hd] at h
      · exact ⟨rfl, fun _ => le_of_not_lt hd⟩
    | some p =>
      obtain ⟨cb0, d0⟩ := p
      by_cases hd : |clientY - centerOf c| < d0 ∧ |clientY - centerOf c| < 150 <;>
        simp [scanStep, hc, hd] at h

theorem scanStep_min (clientY : ℚ) (srcId : Nat) (acc : Option (BlockGeom × ℚ))
    (c : BlockGeom) (hgood : accGood clientY srcId acc) (hc : c.id ≠ srcId)
    (a1 : BlockGeom) (d1 : ℚ) (h : scanStep clientY srcId acc c = some (a1, d1)) :
    d1 ≤ |clientY - centerOf c| := by
  cases acc with
  | none =>
    by_cases hd : |clientY - centerOf c| < 150
    · simp [scanStep, hc, hd] at h
      exact le_of_eq h.2.symm
    · simp [scanStep, hc, hd] at h
  | some p =>
    obtain ⟨cb0, d0⟩ := p
    by_cases hd : |clientY - centerOf c| < d0 ∧ |clientY - centerOf c| < 150
    · simp [scanStep, hc, hd] at h
      exact le_of_eq h.2.symm
    · simp [scanStep, hc, hd] at h
      have hd0 : d0 < 150 := (hgood cb0 d0 rfl).2.2
      rw [← h.2]
      rcases not_and_or.mp hd with hd' | hd'
      · exact le_of_not_lt hd'
      · exact le_trans (le_of_lt hd0) (le_of_not_lt hd')

/-- Full specification of the `forEach` scan, by induction over the
children with a generalized accumulator. -/
theorem scan_fold_spec (clientY : ℚ) (srcId : Nat) (children : List BlockGeom) :
    ∀ acc : Option (BlockGeom × ℚ), accGood clientY srcId acc →
      accGood clientY srcId (children.foldl (scanStep clientY srcId) acc)
      ∧ (∀ cb d, children.foldl (scanStep clientY srcId) acc = some (cb, d) →
          acc = some (cb, d) ∨ cb ∈ children)
      ∧ (∀ a0 d0, acc = some (a0, d0) →
          ∃ cb d, children.foldl (scanStep clientY srcId) acc = some (cb, d) ∧ d ≤ d0)
      ∧ (∀ c ∈ children, c.id ≠ srcId →
          (children.foldl (scanStep clientY srcId) acc = none →
            150 ≤ |clientY - centerOf c|)
          ∧ (∀ cb d, children.foldl (scanStep clientY srcId) acc = some (cb, d) →
              d ≤ |clientY - centerOf c|)) := by
  induction children with
  | nil =>
    intro acc hacc
    refine ⟨hacc, ?_, ?_, ?_⟩
    · intro cb d h
      exact Or.inl h
    · intro a0 d0 h
      exact ⟨a0, d0, h, le_refl _⟩
    · intro c hc
      exact absurd hc (List.not_mem_nil _)
  | cons c cs ih =>
    intro acc hacc
    have hacc1 : accGood clientY srcId (scanStep clientY srcId acc c) :=
      scanStep_good clientY srcId acc c hacc
    obtain ⟨ih1, ih2, ih3, ih4⟩ := ih (scanStep clientY srcId acc c) hacc1
    have hfold : (c :: cs).foldl (scanStep clientY srcId) acc =
        cs.foldl (scanStep clientY srcId) (scanStep clientY srcId acc c) := rfl
    refine ⟨hfold ▸ ih1, ?_, ?_, ?_⟩
    · intro cb d h
      rw [hfold] at h
      rcases ih2 cb d h with h1 | h1
      · rcases scanStep_cases clientY srcId acc c with h2 | h2
        · exact Or.inl (h2 ▸ h1)
        · rw [h2.2] at h1
          simp only [Option.some.injEq, Prod.mk.injEq] at h1
          refine Or.inr ?_
          rw [← h1.1]
          exact List.mem_cons_self c cs
      · exact Or.inr (List.mem_cons_of_mem c h1)
    · intro a0 d0 h
      obtain ⟨a1, d1, h1, hle1⟩ := scanStep_some clientY srcId acc c a0 d0 h
      obtain ⟨cb, d, h2, hle2⟩ := ih3 a1 d1 h1
      exact ⟨cb, d, hfold ▸ h2, le_trans hle2 hle1⟩
    · intro x hx hxsrc
      rcases List.mem_cons.mp hx with hx1 | hx1
      · subst hx1
        constructor
        · intro hnone
          rw [hfold] at hnone
          cases h1 : scanStep clientY srcId acc x with
          | none => exact (scanStep_none clientY srcId acc x h1).2 hxsrc
          | some p =>
            obtain ⟨a1, d1⟩ := p
            obtain ⟨cb, d, h2, _⟩ := ih3 a1 d1 h1
            rw [hnone] at h2
            exact absurd h2 (Option.noConfusion)
        · intro cb d h
          rw [hfold] at h
          cases h1 : scanStep clientY srcId acc x with
          | none =>
            have hx150 := (scanStep_none clientY srcId acc x h1).2 hxsrc
            have hd150 := ((h1 ▸ ih1 : accGood clientY srcId _) cb d h).2.2
            exact le_trans (le_of_lt hd150) hx150
          | some p =>
            obtain ⟨a1, d1⟩ := p
            have hd1 : d1 ≤ |clientY - centerOf x| :=
              scanStep_min clientY srcId acc x hacc hxsrc a1 d1 h1
            obtain ⟨cb2, d2, h2, hle2⟩ := ih3 a1 d1 h1
            rw [h] at h2
            simp only [Option.some.injEq, Prod.mk.injEq] at h2
            refine le_trans ?_ hd1
            rw [h2.2]
            exact hle2
      · exact ⟨fun hnone => (ih4 x hx1 hxsrc).1 (hfold ▸ hnone),
          fun cb d h => (ih4 x hx1 hxsrc).2 cb d (hfold ▸ h)⟩

/-- Detaching distributes over append. -/
theorem removeNode_append (x y : List Block) (n : Block) :
    removeNode (x ++ y) n = removeNode x n ++ removeNode y n := by
  simp [removeNode]

/-- Detaching keeps a child with a different identity. -/
theorem removeNode_cons_of_ne (x : Block) (l : List Block) (n : Block) (h : x.id ≠ n.id) :
    removeNode (x :: l) n = x :: removeNode l n := by
  simp [removeNode, h]

/-- Detaching a node that is not present changes nothing. -/
theorem removeNode_of_not_mem (l : List Block) (n : Block) (h : n.id ∉ l.map Block.id) :
    removeNode l n = l := by
  induction l with
  | nil => rfl
  | cons x l ih =>
    have hx : x.id ≠ n.id := fun hc => h (by simp [hc])
    have hl : n.id ∉ l.map Block.id := fun hc => h (by simp [hc])
    rw [removeNode_cons_of_ne x l n hx, ih hl]

/-- Detaching introduces no identity. -/
theorem notMem_map_id_removeNode (l : List Block) (ab : Block) (x : Nat)
    (h : x ∉ l.map Block.id) : x ∉ (removeNode l ab).map Block.id := by
  intro hc
  apply h
  obtain ⟨b, hb, hbid⟩ := List.mem_map.mp hc
  have hb2 : b ∈ l ∧ ¬ b.id = ab.id := by simpa [removeNode] using hb
  exact List.mem_map.mpr ⟨b, hb2.1, hbid⟩

/-- In a split with distinct identities, the middle block's identity
occurs on neither side. -/
theorem nodup_split (l1 : List Block) (t : Block) (l2 : List Block)
    (h : ((l1 ++ t :: l2).map Block.id).Nodup) :
    t.id ∉ l1.map Block.id ∧ t.id ∉ l2.map Block.id := by
  simp only [List.map_append, List.map_cons, List.nodup_append, List.nodup_cons] at h
  exact ⟨fun hc => h.2.2 hc (List.mem_cons_self _ _), h.2.1.1⟩

/-- `find?` by identity locates the block at its split position. -/
theorem findById_split (l1 : List Block) (t : Block) (l2 : List Block)
    (h : t.id ∉ l1.map Block.id) : findById (l1 ++ t :: l2) t.id = some t := by
  induction l1 with
  | nil => simp [findById]
  | cons x l1 ih =>
    have hx : x.id ≠ t.id := fun hc => h (by simp [hc])
    have hl : t.id ∉ l1.map Block.id := fun hc => h (by simp [hc])
    have hstep : findById ((x :: l1) ++ t :: l2) t.id = findById (l1 ++ t :: l2) t.id := by
      simp [findById, List.find?, hx]
    rw [hstep, ih hl]

/-- `insertBefore` with a null reference appends the detached node. -/
theorem domInsertBefore_nullRef (blocks : List Block) (node : Block) :
    domInsertBefore blocks node none = removeNode blocks node ++ [node] := by
  simp only [domInsertBefore]
  rw [if_neg (by simp)]

/-- `insertBefore` with a reference other than the node itself detaches
the node and inserts it before the reference. -/
theorem domInsertBefore_of_ne (blocks : List Block) (node : Block) (r : Nat)
    (h : r ≠ node.id) :
    domInsertBefore blocks node (some r) = insertBeforeId (removeNode blocks node) node r := by
  simp only [domInsertBefore]
  rw [if_neg (by simp [h])]

/-- `insertBefore(node, node)` when the node has no next sibling: detach
and append. -/
theorem domInsertBefore_self_last (blocks : List Block) (node : Block)
    (h : nextSibling blocks node = none) :
    domInsertBefore blocks node (some node.id) = removeNode blocks node ++ [node] := by
  simp only [domInsertBefore, if_true]
  rw [h]
  rfl

/-- `insertBefore(node, node)` when the node has a next sibling `m`: the
reference is redirected to `m`. -/
theorem domInsertBefore_self_next (blocks : List Block) (node m : Block)
    (h : nextSibling blocks node = some m) :
    domInsertBefore blocks node (some node.id) =
      insertBeforeId (removeNode blocks node) node m.id := by
  simp only [domInsertBefore, if_true]
  rw [h]
  rfl

/-- WHATWG pre-insert of a present node before itself is a no-op. -/
theorem domInsertBefore_self (L1 L2 : List Block) (node : Block)
    (hnodup : ((L1 ++ node :: L2).map Block.id).Nodup) :
    domInsertBefore (L1 ++ node :: L2) node (some node.id) = L1 ++ node :: L2 := by
  obtain ⟨h1, h2⟩ := nodup_split L1 node L2 hnodup
  have hrmMid : removeNode (node :: L2) node = L2 := by
    have hdrop : removeNode (node :: L2) node = removeNode L2 node := by
      simp [removeNode]
    rw [hdrop, removeNode_of_not_mem L2 node h2]
  have hrm : removeNode (L1 ++ node :: L2) node = L1 ++ L2 := by
    rw [removeNode_append, removeNode_of_not_mem L1 node h1, hrmMid]
  cases L2 with
  | nil =>
    have hns : nextSibling (L1 ++ [node]) node = none := nextSibling_last L1 node h1
    rw [domInsertBefore_self_last _ node hns, hrm]
    simp
  | cons m L2t =>
    have hns : nextSibling (L1 ++ node :: m :: L2t) node = some m :=
      nextSibling_append L1 node m L2t h1
    have hnodup2 : (((L1 ++ [node]) ++ m :: L2t).map Block.id).Nodup := by
      rw [List.append_assoc, List.singleton_append]
      exact hnodup
    obtain ⟨hm1, _⟩ := nodup_split (L1 ++ [node]) m L2t hnodup2
    have hmL1 : m.id ∉ L1.map Block.id := by
      intro hc
      exact hm1 (by simp [hc])
    rw [domInsertBefore_self_next _ node m hns, hrm]
    exact insertBeforeId_append L1 m L2t node hmL1

/-- **C3.** Drag-over resolves the drop target to the non-source child
whose vertical center is nearest to the pointer Y provided that distance
is below 150, with orientation `before` exactly when the pointer is above
the target's midpoint; when no non-source child is within 150 no target
is resolved. On drop with a resolved target `(t, pos)` the dragged block
ends up immediately before (`pos = before`) or immediately after
(`pos = after`) the target, the rest of the document keeping its order —
including the corner where the target immediately precedes the dragged
block, where `insertBefore(node, node)` is a no-op. In particular
dropping dragged `A` on `(C, before)` in `[A, B, C]` yields `[B, A, C]`,
and dropping `A` on `(B, after)` in `[B, A, C]` leaves `[B, A, C]`. -/
theorem drag_over_drop_rule (clientY : ℚ) (srcId : Nat) (children : List BlockGeom)
    (blocks l1 l2 : List Block) (ab tgt : Block) :
    (∀ t pos, handleDragOver clientY srcId children = some (t, pos) →
        t.id ≠ srcId ∧ t ∈ children ∧ |clientY - centerOf t| < 150
        ∧ (∀ c ∈ children, c.id ≠ srcId →
            |clientY - centerOf t| ≤ |clientY - centerOf c|)
        ∧ (pos = DropPos.before ↔ clientY < centerOf t))
    ∧ (handleDragOver clientY srcId children = none →
        ∀ c ∈ children, c.id ≠ srcId → 150 ≤ |clientY - centerOf c|)
    ∧ (blocks = l1 ++ tgt :: l2 → (blocks.map Block.id).Nodup → ab ∈ blocks →
        ab.id ≠ tgt.id →
        (handleDrop blocks true (some ab) (some (tgt.id, DropPos.before))).blocks =
          removeNode l1 ab ++ ab :: tgt :: removeNode l2 ab
        ∧ (handleDrop blocks true (some ab) (some (tgt.id, DropPos.after))).blocks =
          removeNode l1 ab ++ tgt :: ab :: removeNode l2 ab)
    ∧ ((handleDrop [⟨0, "p", "A"⟩, ⟨1, "p", "B"⟩, ⟨2, "p", "C"⟩] true (some ⟨0, "p", "A"⟩)
        (some (2, DropPos.before))).blocks =
        [⟨1, "p", "B"⟩, ⟨0, "p", "A"⟩, ⟨2, "p", "C"⟩])
    ∧ ((handleDrop [⟨1, "p", "B"⟩, ⟨0, "p", "A"⟩, ⟨2, "p", "C"⟩] true (some ⟨0, "p", "A"⟩)
        (some (1, DropPos.after))).blocks =
        [⟨1, "p", "B"⟩, ⟨0, "p", "A"⟩, ⟨2, "p", "C"⟩]) := by
  have hgood0 : accGood clientY srcId none := by
    intro cb d h
    exact absurd h (Option.noConfusion)
  obtain ⟨hg, hmem, hpers, hmin⟩ := scan_fold_spec clientY srcId children none hgood0
  refine ⟨?_, ?_, ?_, by decide, by decide⟩
  · intro t pos h
    unfold handleDragOver at h
    cases hfc : findClosest clientY srcId children with
    | none => rw [hfc] at h; exact absurd h (Option.noConfusion)
    | some p =>
      obtain ⟨c0, d0⟩ := p
      rw [hfc] at h
      have hct : c0 = t := by
        have := Option.some.inj h
        exact (Prod.mk.injEq _ _ _ _ ▸ this).1
      subst hct
      have hgd := hg c0 d0 hfc
      have hmemc : c0 ∈ children := by
        rcases hmem c0 d0 hfc with h1 | h1
        · exact absurd h1 (Option.noConfusion)
        · exact h1
      refine ⟨hgd.1, hmemc, hgd.2.1 ▸ hgd.2.2, ?_, ?_⟩
      · intro c hc hcsrc
        have := (hmin c hc hcsrc).2 c0 d0 hfc
        exact hgd.2.1 ▸ this
      · have hpos : pos = if clientY < centerOf c0 then DropPos.before else DropPos.after := by
          have := Option.some.inj h
          exact ((Prod.mk.injEq _ _ _ _ ▸ this).2).symm
        by_cases hlt : clientY < centerOf c0
        · simp [hpos, hlt]
        · simp [hpos, hlt]
  · intro h c hc hcsrc
    unfold handleDragOver at h
    cases hfc : findClosest clientY srcId children with
    | none => exact (hmin c hc hcsrc).1 hfc
    | some p =>
      obtain ⟨c0, d0⟩ := p
      rw [hfc] at h
      exact absurd h (Option.noConfusion)
  · intro hsplit hnodup habmem hne
    subst hsplit
    obtain ⟨ht1, ht2⟩ := nodup_split l1 tgt l2 hnodup
    have hneT : tgt.id ≠ ab.id := fun hc => hne hc.symm
    have htRm : tgt.id ∉ (removeNode l1 ab).map Block.id :=
      notMem_map_id_removeNode l1 ab tgt.id ht1
    have hfind : findById (l1 ++ tgt :: l2) tgt.id = some tgt := findById_split l1 tgt l2 ht1
    constructor
    · simp only [handleDrop]
      rw [domInsertBefore_of_ne _ ab tgt.id hneT, removeNode_append,
        removeNode_cons_of_ne tgt l2 ab hneT]
      exact insertBeforeId_append (removeNode l1 ab) tgt (removeNode l2 ab) ab htRm
    · cases l2 with
      | nil =>
        have hns : nextSibling (l1 ++ [tgt]) tgt = none := nextSibling_last l1 tgt ht1
        simp only [handleDrop, hfind, Option.bind, hns, Option.map]
        rw [domInsertBefore_nullRef, removeNode_append,
          removeNode_cons_of_ne tgt [] ab hneT]
        simp [removeNode]
      | cons n l2t =>
        have hns : nextSibling (l1 ++ tgt :: n :: l2t) tgt = some n :=
          nextSibling_append l1 tgt n l2t ht1
        have hnodup2 : (((l1 ++ [tgt]) ++ n :: l2t).map Block.id).Nodup := by
          rw [List.append_assoc, List.singleton_append]
          exact hnodup
        obtain ⟨hn1, hn2⟩ := nodup_split (l1 ++ [tgt]) n l2t hnodup2
        simp only [handleDrop, hfind, Option.bind, hns, Option.map]
        by_cases hn : n.id = ab.id
        · have hnEq : n = ab := by
            have hmemN : n ∈ l1 ++ tgt :: n :: l2t := by simp
            exact List.inj_on_of_nodup_map hnodup hmemN habmem hn
          subst hnEq
          have hself := domInsertBefore_self (l1 ++ [tgt]) l2t n hnodup2
          rw [show l1 ++ tgt :: n :: l2t = (l1 ++ [tgt]) ++ n :: l2t from by simp] at hns ⊢
          rw [hself]
          have hnL1 : n.id ∉ l1.map Block.id := fun hc => hn1 (by simp [hc])
          rw [removeNode_of_not_mem l1 n hnL1]
          have hdropSelf : removeNode (n :: l2t) n = l2t := by
            have hdrop : removeNode (n :: l2t) n = removeNode l2t n := by
              simp [removeNode]
            rw [hdrop, removeNode_of_not_mem l2t n hn2]
          rw [hdropSelf]
          simp
        · rw [domInsertBefore_of_ne _ ab n.id hn, removeNode_append,
            removeNode_cons_of_ne tgt (n :: l2t) ab hneT,
            removeNode_cons_of_ne n l2t ab (fun hc => hn hc)]
          have hn1L : n.id ∉ l1.map Block.id := fun hc => hn1 (by simp [hc])
          have hn1T : n.id ≠ tgt.id := fun hc => hn1 (by simp [hc])
          have hnPre : n.id ∉ (removeNode l1 ab ++ [tgt]).map Block.id := by
            intro hc
            rw [List.map_append] at hc
            rcases List.mem_append.mp hc with hc1 | hc1
            · exact notMem_map_id_removeNode l1 ab n.id hn1L hc1
            · simp at hc1
              exact hn1T hc1
          have hins := insertBeforeId_append (removeNode l1 ab ++ [tgt]) n
            (removeNode l2t ab) ab hnPre
          rw [show removeNode l1 ab ++ tgt :: n :: removeNode l2t ab =
              (removeNode l1 ab ++ [tgt]) ++ n :: removeNode l2t ab from by simp, hins]
          simp

/-- Witness for C3 at concrete inputs: three stacked blocks of height 10
at tops 0, 20, 40, dragging the first (id 0) with the pointer at
y = 24: the resolved target is the block with id 1 (center 25, distance
1), oriented `before`, and that distance is minimal among non-source
children; and the general drop rule applied to `[A, B, C]` with dragged
`A` and resolved target `(C, before)`. -/
theorem drag_over_drop_rule_witness :
    handleDragOver 24 0 [⟨0, 0, 10⟩, ⟨1, 20, 10⟩, ⟨2, 40, 10⟩] =
      some (⟨1, 20, 10⟩, DropPos.before) ∧
    (∀ c ∈ [(⟨0, 0, 10⟩ : BlockGeom), ⟨1, 20, 10⟩, ⟨2, 40, 10⟩], c.id ≠ 0 →
      |(24 : ℚ) - centerOf ⟨1, 20, 10⟩| ≤ |(24 : ℚ) - centerOf c|) ∧
    (handleDrop [⟨0, "p", "A"⟩, ⟨1, "p", "B"⟩, ⟨2, "p", "C"⟩] true (some ⟨0, "p", "A"⟩)
        (some (2, DropPos.before))).blocks =
      removeNode [⟨0, "p", "A"⟩, ⟨1, "p", "B"⟩] ⟨0, "p", "A"⟩ ++
        ⟨0, "p", "A"⟩ :: ⟨2, "p", "C"⟩ :: removeNode [] ⟨0, "p", "A"⟩ := by
  have hfc : findClosest 24 0 [⟨0, 0, 10⟩, ⟨1, 20, 10⟩, ⟨2, 40, 10⟩] =
      some (⟨1, 20, 10⟩, 1) := by
    norm_num [findClosest, List.foldl, scanStep, centerOf]
  have h : handleDragOver 24 0 [⟨0, 0, 10⟩, ⟨1, 20, 10⟩, ⟨2, 40, 10⟩] =
      some (⟨1, 20, 10⟩, DropPos.before) := by
    rw [handleDragOver, hfc]
    norm_num [centerOf]
  refine ⟨h, ?_, ?_⟩
  · exact ((drag_over_drop_rule 24 0 [⟨0, 0, 10⟩, ⟨1, 20, 10⟩, ⟨2, 40, 10⟩]
      [⟨0, "p", "A"⟩] [] [] ⟨0, "p", "A"⟩ ⟨0, "p", "A"⟩).1
      ⟨1, 20, 10⟩ DropPos.before h).2.2.2.1
  · exact ((drag_over_drop_rule 24 0 [⟨0, 0, 10⟩, ⟨1, 20, 10⟩, ⟨2, 40, 10⟩]
      [⟨0, "p", "A"⟩, ⟨1, "p", "B"⟩, ⟨2, "p", "C"⟩]
      [⟨0, "p", "A"⟩, ⟨1, "p", "B"⟩] [] ⟨0, "p", "A"⟩ ⟨2, "p", "C"⟩).2.2.1
      rfl (by decide) (by decide) (by decide)).1

/-! ## Menu state (RichEditor.tsx: handleInput lines 129-150,
checkSelection lines 295-321, overlay at line 644)

`showMenu` (slash menu) and `showBubbleMenu` (bubble menu) are two
independent `useState` booleans. `handleInput` opens/closes only
`showMenu`; `checkSelection` opens/closes only `showBubbleMenu`.
-/

/-- The `aiMode` state: `'none' | 'prompt' | 'loading'`. -/
inductive AiMode
  | none
  | prompt
  | loading
deriving DecidableEq, Repr

/-- The menu-relevant component state. -/
structure MenuState where
  showMenu : Bool
  showBubbleMenu : Bool
  aiMode : AiMode
deriving DecidableEq, Repr

/-- JS `text.endsWith('/')`: the last character is `'/'` (`false` on the
empty string). -/
def jsEndsWithSlash (t : String) : Bool := t.data.getLast? == some '/'

/-- JS `text.includes('/')`: some character is `'/'`. -/
def jsIncludesSlash (t : String) : Bool := t.data.contains '/'

/-- Menu fragment of `handleInput`: `focusText` is
`selection.focusNode.textContent`.

```
if (text.endsWith('/') && !showMenu) { ...; setShowMenu(true); }
else if (!text.includes('/')) { setShowMenu(false); }
```
-/
def handleInputMenu (s : MenuState) (focusText : String) : MenuState :=
  if jsEndsWithSlash focusText && !s.showMenu then { s with showMenu := true }
  else if !(jsIncludesSlash focusText) then { s with showMenu := false }
  else s

/-- Menu fragment of `checkSelection`: `selNonEmpty` is true when the
selection is non-collapsed, lies inside the editor, and trims to a
nonempty string.

```
if (selection && !selection.isCollapsed && editorRef.current?.contains(...)) {
    if (text.length > 0) { ...; setShowBubbleMenu(true); return; }
}
if (aiMode === 'none') { setShowBubbleMenu(false); }
```
-/
def checkSelectionMenu (s : MenuState) (selNonEmpty : Bool) : MenuState :=
  if selNonEmpty then { s with showBubbleMenu := true }
  else if s.aiMode = AiMode.none then { s with showBubbleMenu := false }
  else s

/-- User-interface events that drive the two menu flags. -/
inductive UIEvent
  | input (focusText : String)
  | selection (selNonEmpty : Bool)
  | slashOverlayClick
deriving Repr

/-- One step of the menu-state machine. `slashOverlayClick` is the
full-screen overlay rendered behind an open slash menu
(`onClick={() => setShowMenu(false)}`). -/
def uiStep (s : MenuState) : UIEvent → MenuState
  | .input t => handleInputMenu s t
  | .selection b => checkSelectionMenu s b
  | .slashOverlayClick => { s with showMenu := false }

/-- Initial component state: both menus closed, `aiMode = 'none'`. -/
def initMenuState : MenuState := ⟨false, false, AiMode.none⟩

/-- The state reached from the initial state by a list of events. -/
def runUI (evs : List UIEvent) : MenuState := evs.foldl uiStep initMenuState

/-- **C4 counterexample.** A reachable state has both popups open: typing
`"/"` opens the slash menu (input event, collapsed selection), then a
keyboard selection (shift+arrow, keyup) makes `checkSelection` open the
bubble menu without touching `showMenu`. The mutual-exclusion invariant
fails on the code. -/
theorem menus_both_open_cex :
    (runUI [UIEvent.input ("/"), UIEvent.selection false, UIEvent.selection true]).showMenu
        = true ∧
    (runUI [UIEvent.input ("/"), UIEvent.selection false, UIEvent.selection true]).showBubbleMenu
        = true := by
  decide

/-- **C4 (amended).** The two popups are independent flags: opening the
bubble menu in `checkSelection` never changes `showMenu`, opening the
slash menu in `handleInput` never changes `showBubbleMenu`, and a state
with both popups open is reachable; each handler closes only its own
popup (a slash-free text closes the slash menu; a collapsed selection
with `aiMode = 'none'` closes the bubble menu). -/
theorem menus_independent (s : MenuState) (focusText : String) (selNonEmpty : Bool) :
    ((checkSelectionMenu s selNonEmpty).showMenu = s.showMenu)
    ∧ ((handleInputMenu s focusText).showBubbleMenu = s.showBubbleMenu)
    ∧ ((handleInputMenu s focusText).aiMode = s.aiMode)
    ∧ (selNonEmpty = true → (checkSelectionMenu s selNonEmpty).showBubbleMenu = true)
    ∧ (jsEndsWithSlash focusText = false → jsIncludesSlash focusText = false →
        (handleInputMenu s focusText).showMenu = false)
    ∧ (selNonEmpty = false → s.aiMode = AiMode.none →
        (checkSelectionMenu s selNonEmpty).showBubbleMenu = false)
    ∧ (runUI [UIEvent.input ("/"), UIEvent.selection true] =
        ⟨true, true, AiMode.none⟩) := by
  refine ⟨?_, ?_, ?_, ?_, ?_, ?_, by decide⟩
  · unfold checkSelectionMenu
    split <;> [rfl; (split <;> rfl)]
  · unfold handleInputMenu
    split <;> [rfl; (split <;> rfl)]
  · unfold handleInputMenu
    split <;> [rfl; (split <;> rfl)]
  · intro h
    simp [checkSelectionMenu, h]
  · intro h1 h2
    simp [handleInputMenu, h1, h2]
  · intro h1 h2
    simp [checkSelectionMenu, h1, h2]

/-- Witness for C4 (amended) at a concrete state. -/
theorem menus_independent_witness :
    (checkSelectionMenu ⟨true, false, AiMode.none⟩ true).showBubbleMenu = true ∧
    (checkSelectionMenu ⟨true, false, AiMode.none⟩ true).showMenu = true :=
  ⟨(menus_independent ⟨true, false, AiMode.none⟩ ("x") true).2.2.2.1 rfl,
   (menus_independent ⟨true, false, AiMode.none⟩ ("x") true).1⟩

/-! ## Slash-menu actions (RichEditor.tsx: insertHtml lines 342-379,
execCommand lines 333-340, blockTypes lines 562-577)

The menu entries Text / Heading 1-3 / lists run
`execCommand('formatBlock', ...)` or `execCommand('insert...List')`; the
entries Quote / Callout / Code Block / Divider / Video run `insertHtml`.
Only `insertHtml` contains the trigger-deletion step:

```
if (selection && selection.focusNode && selection.focusNode.textContent?.endsWith('/')) {
     ... select the final character ...
     document.execCommand('delete');
}
document.execCommand('insertHTML', false, html);
...
onChange(editorRef.current.innerHTML);
setShowMenu(false);
```
-/

/-- State visible to a slash-menu action: the active block's tag, the text
of the caret's focus node (caret at its end), and the menu flag. -/
structure SlashState where
  tag : String
  text : String
  showMenu : Bool
deriving DecidableEq, Repr

/-- Serialization of the active block. -/
def SlashState.render (s : SlashState) : String :=
  "<" ++ s.tag ++ ">" ++ s.text ++ "</" ++ s.tag ++ ">"

/-- JS `text.slice(0, -1)` on the focus node (deleting the selected final
character, as `insertHtml` does before inserting). -/
def dropLastChar (t : String) : String := String.mk t.data.dropLast

/-- The `execCommand` wrapper (lines 333-340) applied to
`formatBlock`: the browser primitive converts the caret's block to the
given tag, leaving its text content (including any trailing `"/"`)
unchanged; the wrapper then emits `onChange` and closes the menu. -/
def execCommandFormatBlock (s : SlashState) (newTag : String) : SlashState × List String :=
  let s1 : SlashState := ⟨newTag, s.text, false⟩
  (s1, [s1.render])

/-- The `blockTypes` entry `Heading 1`:
`action: () => execCommand('formatBlock', 'H1')`. -/
def heading1Action (s : SlashState) : SlashState × List String :=
  execCommandFormatBlock s ("h1")

/-- Embedding of `insertHtml` for a caret sitting at the end of the focus
node: when the node's text ends with `"/"` the final character is
selected and deleted, then the fragment is inserted at the caret, one
`onChange` is emitted and the menu closes. -/
def insertHtmlAt (s : SlashState) (frag : String) : SlashState × List String :=
  let t := if jsEndsWithSlash s.text then dropLastChar s.text else s.text
  let s1 : SlashState := ⟨s.tag, t ++ frag, false⟩
  (s1, [s1.render])

/-- **C5 counterexample.** With the caret after the trailing `"/"` of
`"abc/"`, choosing `Heading 1` converts the block and closes the menu but
leaves the `"/"` in the text: the heading entries run
`execCommand('formatBlock', ...)`, which contains no trigger-deletion
step, so the claim fails as stated. -/
theorem slash_trigger_heading_cex :
    (heading1Action ⟨"p", "abc/", true⟩).1 = ⟨"h1", "abc/", false⟩ ∧
    jsEndsWithSlash (heading1Action ⟨"p", "abc/", true⟩).1.text = true := by
  decide

/-- **C5 (amended).** Menu entries that insert an HTML fragment through
`insertHtml` (Quote, Callout, Code Block, Divider, Video, images) delete
the trailing `"/"` trigger before inserting, so it does not remain in the
final content, and close the menu; entries implemented with native
formatting commands (Text, Heading 1-3, lists) convert the block and
close the menu but leave the trailing `"/"` in place. -/
theorem slash_trigger_removal (s : SlashState) (frag newTag : String) :
    (jsEndsWithSlash s.text = true →
        (insertHtmlAt s frag).1.text = dropLastChar s.text ++ frag ∧
        (insertHtmlAt s frag).1.showMenu = false ∧
        (insertHtmlAt s frag).2 = [(insertHtmlAt s frag).1.render])
    ∧ ((execCommandFormatBlock s newTag).1.text = s.text ∧
        (execCommandFormatBlock s newTag).1.tag = newTag ∧
        (execCommandFormatBlock s newTag).1.showMenu = false) := by
  refine ⟨?_, by simp [execCommandFormatBlock]⟩
  intro h
  simp [insertHtmlAt, h]

/-- Witness for C5 (amended): inserting a quote fragment with the focus
text `"abc/"` removes the trigger. -/
theorem slash_trigger_removal_witness :
    jsEndsWithSlash ("abc/") = true ∧
    (insertHtmlAt ⟨"p", "abc/", true⟩ ("<blockquote>Empty quote</blockquote>")).1.text =
      dropLastChar ("abc/") ++ "<blockquote>Empty quote</blockquote>" :=
  ⟨by decide,
   ((slash_trigger_removal ⟨"p", "abc/", true⟩ ("<blockquote>Empty quote</blockquote>")
      ("h1")).1 (by decide)).1⟩

/-! ## AI action dispatch (RichEditor.tsx: handleAiAction lines 407-414)

```
const handleAiAction = async (instruction, customPrompt?) => {
  if (!selectionRange || !onAiRequest) return;
  setAiMode('loading');
  await onAiRequest(selectionRange.toString(), customPrompt || instruction);
  setAiMode('none');
  setShowBubbleMenu(false);
  setAiPrompt('');
};
```

There is no `try`/`catch`/`finally`: when the awaited promise rejects, the
async function aborts and the three statements after the `await` never
run.
-/

/-- The AI-relevant component state. -/
structure AiUiState where
  aiMode : AiMode
  showBubbleMenu : Bool
  aiPrompt : String
deriving DecidableEq, Repr

/-- Outcome of the awaited `onAiRequest` promise. -/
inductive AiOutcome
  | resolves
  | rejects
deriving DecidableEq, Repr

/-- Embedding of `handleAiAction`: the component state when the async
function finishes (normally or by propagating a rejection). -/
def handleAiAction (s : AiUiState) (hasSelection hasCallback : Bool)
    (outcome : AiOutcome) : AiUiState :=
  if !hasSelection || !hasCallback then s
  else
    let s1 : AiUiState := { s with aiMode := AiMode.loading }
    match outcome with
    | .rejects => s1
    | .resolves => ⟨AiMode.none, false, ""⟩

/-- **C7 counterexample.** A rejected AI call leaves the menu frozen:
after submitting from the prompt state, a rejection of `onAiRequest`
leaves `aiMode = 'loading'` with the bubble menu still open, because the
cleanup statements sit after the `await` with no `finally` path. -/
theorem ai_loading_stuck_cex :
    handleAiAction ⟨AiMode.prompt, true, "rewrite this"⟩ true true AiOutcome.rejects =
      ⟨AiMode.loading, true, "rewrite this"⟩ := by
  decide

/-- **C7 (amended).** When the AI call resolves, the loading flag is reset
and the menu closes; when it rejects, the loading flag is not reset and
the bubble menu stays open in the loading state (the cleanup is not in a
guaranteed-execution path). -/
theorem ai_loading_release (s : AiUiState) :
    (handleAiAction s true true AiOutcome.resolves =
        ⟨AiMode.none, false, ""⟩)
    ∧ (handleAiAction s true true AiOutcome.rejects =
        ⟨AiMode.loading, s.showBubbleMenu, s.aiPrompt⟩) := by
  constructor
  · simp [handleAiAction]
  · simp [handleAiAction]

/-! ## Inline-code toggle (RichEditor.tsx: toggleInlineCode lines 228-248)

```
const toggleInlineCode = () => {
  const selection = window.getSelection();
  if (!selection || selection.rangeCount === 0) return;
  let node = selection.anchorNode;
  if (node && node.nodeType === 3) node = node.parentElement;
  const el = node;
  if (el && el.tagName === 'CODE') {
      const text = document.createTextNode(el.innerText);
      el.replaceWith(text);
      onChange(editorRef.current?.innerHTML || '');
  } else {
      const text = selection.toString();
      if (text) {
           document.execCommand('insertHTML', false, `<code class="...">${text}</code>`);
           setShowBubbleMenu(false);
      }
  }
  onChange(editorRef.current?.innerHTML || '');
};
```

The selection is modeled node-aligned: the paragraph's inline children
are `pre ++ mid ++ post`, where `mid` are the nodes the selection covers
(for a collapsed caret, the single node containing the caret). The
anchor node is the first node of `mid`; after the `nodeType === 3` step
the anchor element of a text node is its parent.
-/

/-- An inline node inside a block: a text node, an inline `<code>`
element, or another inline element (such as `<b>`), each holding text. -/
inductive Inline
  | text (s : String)
  | code (cls : String) (s : String)
  | elem (tag : String) (s : String)
deriving DecidableEq, Repr

/-- `node.innerText` / `textContent` of an inline node. -/
def Inline.innerText : Inline → String
  | .text s => s
  | .code _ s => s
  | .elem _ s => s

/-- Serialization of an inline node. -/
def Inline.render : Inline → String
  | .text s => s
  | .code cls s => "<code class=\"" ++ cls ++ "\">" ++ s ++ "</code>"
  | .elem tag s => "<" ++ tag ++ ">" ++ s ++ "</" ++ tag ++ ">"

/-- `innerHTML` of a run of inline nodes. -/
def renderInlines (l : List Inline) : String := String.join (l.map Inline.render)

/-- `selection.toString()` over the covered nodes: their concatenated
text, markup discarded. -/
def selString (sel : List Inline) : String := String.join (sel.map Inline.innerText)

/-- The class attribute hard-coded in the `<code>` wrapper of
`toggleInlineCode` (line 243). -/
def codeCls : String :=
  "bg-neutral-200 dark:bg-[#2a2a2a] text-red-500 dark:text-[#EB5757] px-1.5 py-0.5 rounded text-[0.9em] font-mono border border-neutral-300 dark:border-white/5 mx-0.5"

/-- Outcome of `toggleInlineCode`: the paragraph's inline children, the
`onChange` payloads in order, and whether the bubble menu was closed. -/
structure ToggleResult where
  content : List Inline
  emitted : List String
  closedBubble : Bool
deriving DecidableEq, Repr

/-- Embedding of `toggleInlineCode`. `mid = []` models a missing
selection (`rangeCount === 0`): early return, nothing emitted. When the
anchor sits in a `<code>` element that element is replaced by a text node
of its `innerText` (note the two `onChange` calls on that path, lines 239
and 247); otherwise a nonempty `selection.toString()` is wrapped in a
`<code>` element replacing the selected nodes and the bubble menu closes;
a collapsed or empty selection changes nothing but still emits once. -/
def toggleInlineCode (pre mid post : List Inline) (collapsed : Bool) : ToggleResult :=
  match mid with
  | [] => ⟨pre ++ post, [], false⟩
  | a :: rest =>
    match a with
    | .code _ s =>
        let content := pre ++ Inline.text s :: rest ++ post
        ⟨content, [renderInlines content, renderInlines content], false⟩
    | _ =>
        let selStr := if collapsed then "" else selString (a :: rest)
        if selStr = "" then
          ⟨pre ++ a :: rest ++ post, [renderInlines (pre ++ a :: rest ++ post)], false⟩
        else
          let content := pre ++ [Inline.code codeCls selStr] ++ post
          ⟨content, [renderInlines content], true⟩

/-- `String.join` distributes over list append. -/
theorem stringJoin_append (l1 l2 : List String) :
    String.join (l1 ++ l2) = String.join l1 ++ String.join l2 := by
  apply String.ext
  simp [String.join_eq]

/-- Joining a singleton yields its only element. -/
theorem stringJoin_singleton (s : String) : String.join [s] = s := by
  apply String.ext
  simp [String.join_eq]

/-- `renderInlines` distributes over append. -/
theorem renderInlines_append (l1 l2 : List Inline) :
    renderInlines (l1 ++ l2) = renderInlines l1 ++ renderInlines l2 := by
  simp [renderInlines, stringJoin_append]

/-- A run of text nodes renders as its joined text. -/
theorem renderInlines_textRun (l : List String) :
    renderInlines (l.map Inline.text) = String.join l := by
  have h : List.map (Inline.render ∘ Inline.text) l = l := by
    induction l with
    | nil => rfl
    | cons x l ih => simpa [Inline.render] using ih
  simp only [renderInlines, List.map_map, h]

/-- `selection.toString()` of a run of text nodes is its joined text. -/
theorem selString_textRun (l : List String) :
    selString (l.map Inline.text) = String.join l := by
  have h : List.map (Inline.innerText ∘ Inline.text) l = l := by
    induction l with
    | nil => rfl
    | cons x l ih => simpa [Inline.innerText] using ih
  simp only [selString, List.map_map, h]

set_option maxRecDepth 4096 in
/-- **C8 counterexample.** A selection containing inline markup breaks the
involution: selecting `a<b>b</b>`, the first toggle wraps
`selection.toString() = "ab"` (markup discarded), and the second toggle
unwraps to the plain text `"ab"`, which is not byte-identical to the
original HTML `a<b>b</b>`. -/
theorem toggle_involution_cex :
    (toggleInlineCode [] [Inline.text ("a"), Inline.elem ("b") ("b")] [] false).content =
      [Inline.code codeCls ("ab")] ∧
    (toggleInlineCode [] [Inline.code codeCls ("ab")] [] false).content =
      [Inline.text ("ab")] ∧
    renderInlines [Inline.text ("ab")] ≠
      renderInlines [Inline.text ("a"), Inline.elem ("b") ("b")] := by
  decide

/-- **C8 (amended).** For every unchanged non-empty selection consisting
of plain text nodes (no inline element inside the selection), toggling
twice yields byte-identical HTML: the first toggle wraps the selected
text in a `<code>` element, the second unwraps it back to plain text. A
selection containing inline markup is flattened to its plain text by the
first toggle, so the round trip is not byte-identical there. -/
theorem toggle_involution_plain (pre post : List Inline) (texts : List String)
    (hne : selString (texts.map Inline.text) ≠ "") :
    (toggleInlineCode pre (texts.map Inline.text) post false).content =
      pre ++ [Inline.code codeCls (selString (texts.map Inline.text))] ++ post
    ∧ (toggleInlineCode pre
        [Inline.code codeCls (selString (texts.map Inline.text))] post false).content =
      pre ++ [Inline.text (selString (texts.map Inline.text))] ++ post
    ∧ renderInlines (toggleInlineCode pre
        [Inline.code codeCls (selString (texts.map Inline.text))] post false).content =
      renderInlines (pre ++ texts.map Inline.text ++ post) := by
  cases texts with
  | nil => exact absurd rfl hne
  | cons t ts =>
    have hsel : selString (Inline.text t :: List.map Inline.text ts) ≠ "" := by
      simpa using hne
    have h1 : (toggleInlineCode pre ((t :: ts).map Inline.text) post false).content =
        pre ++ [Inline.code codeCls (selString ((t :: ts).map Inline.text))] ++ post := by
      simp [toggleInlineCode, hsel]
    have h2 : (toggleInlineCode pre
        [Inline.code codeCls (selString ((t :: ts).map Inline.text))] post false).content =
        pre ++ [Inline.text (selString ((t :: ts).map Inline.text))] ++ post := by
      simp [toggleInlineCode]
    refine ⟨h1, h2, ?_⟩
    rw [h2]
    have hmid : renderInlines [Inline.text (selString ((t :: ts).map Inline.text))] =
        renderInlines ((t :: ts).map Inline.text) := by
      rw [selString_textRun, renderInlines_textRun]
      simp only [renderInlines, List.map_cons, List.map_nil]
      rw [show Inline.render (Inline.text (String.join (t :: ts))) = String.join (t :: ts)
        from rfl]
      exact stringJoin_singleton _
    calc renderInlines (pre ++ [Inline.text (selString ((t :: ts).map Inline.text))] ++ post)
        = renderInlines pre ++
            renderInlines [Inline.text (selString ((t :: ts).map Inline.text))] ++
            renderInlines post := by
          rw [renderInlines_append, renderInlines_append]
      _ = renderInlines pre ++ renderInlines ((t :: ts).map Inline.text) ++
            renderInlines post := by rw [hmid]
      _ = renderInlines (pre ++ (t :: ts).map Inline.text ++ post) := by
          rw [renderInlines_append, renderInlines_append]

/-- Witness for C8 (amended) on the selection `["foo"]`. -/
theorem toggle_involution_plain_witness :
    selString ([("foo" : String)].map Inline.text) ≠ "" ∧
    renderInlines (toggleInlineCode []
        [Inline.code codeCls (selString ([("foo" : String)].map Inline.text))] [] false).content =
      renderInlines ([] ++ [("foo" : String)].map Inline.text ++ []) :=
  ⟨by decide, (toggle_involution_plain [] [] [("foo" : String)] (by decide)).2.2⟩

/-- **C10.** Boundary no-op operations still emit content: move-up on the
first block and move-down on the last block leave the document unchanged
yet call `onChange` exactly once with the unchanged serialization
(`handleBlockAction` emits unconditionally after its `switch`), and an
inline-code toggle on a collapsed selection outside any code element
changes nothing yet calls `onChange` exactly once with the unchanged
serialization (the final `onChange` at line 247 runs on every
non-early-return path). -/
theorem noop_ops_still_emit (blocks rest init : List Block) (ab : Block) (freshId : Nat)
    (pre post : List Inline) (a : Inline) :
    (blocks = ab :: rest →
      handleBlockAction blocks (some ab) freshId BlockAction.up =
        ⟨blocks, [serializeDoc blocks], true⟩)
    ∧ (blocks = init ++ [ab] → ab.id ∉ init.map Block.id →
      handleBlockAction blocks (some ab) freshId BlockAction.down =
        ⟨blocks, [serializeDoc blocks], true⟩)
    ∧ ((∀ cls s, a ≠ Inline.code cls s) →
      toggleInlineCode pre [a] post true =
        ⟨pre ++ a :: post, [renderInlines (pre ++ a :: post)], false⟩) := by
  refine ⟨?_, ?_, ?_⟩
  · intro h
    subst h
    simp [handleBlockAction, prevSibling_head]
  · intro h hf
    subst h
    simp [handleBlockAction, nextSibling_last init ab hf]
  · intro hnc
    cases a with
    | text s => simp [toggleInlineCode]
    | code cls s => exact absurd rfl (hnc cls s)
    | elem tag s => simp [toggleInlineCode]

/-- Witness for C10 at a concrete one-block document and a concrete
collapsed caret in a plain text node. -/
theorem noop_ops_still_emit_witness :
    handleBlockAction [⟨0, "p", "A"⟩] (some ⟨0, "p", "A"⟩) 9 BlockAction.up =
      ⟨[⟨0, "p", "A"⟩], [serializeDoc [⟨0, "p", "A"⟩]], true⟩ ∧
    toggleInlineCode [] [Inline.text ("hi")] [] true =
      ⟨[Inline.text ("hi")], [renderInlines [Inline.text ("hi")]], false⟩ :=
  ⟨(noop_ops_still_emit [⟨0, "p", "A"⟩] [] [] ⟨0, "p", "A"⟩ 9 [] [] (Inline.text ("hi"))).1 rfl,
   by
    have h := (noop_ops_still_emit [⟨0, "p", "A"⟩] [] [] ⟨0, "p", "A"⟩ 9 [] []
      (Inline.text ("hi"))).2.2 (fun cls s => by simp)
    simpa using h⟩

/-! ## Word count and reading time (RichEditor.tsx, stats useEffect lines 95-100)

```
const text = editorRef.current?.innerText || "";
const words = text.trim().split(/\s+/).filter(w => w.length > 0).length;
setWordCount(words);
setReadingTime(Math.ceil(words / 200));
```
-/

/-- JS regex `\s` on a character. -/
def isWs (c : Char) : Bool := c.isWhitespace

/-- JS `String.prototype.trim()`: remove leading and trailing
whitespace. -/
def jsTrim (cs : List Char) : List Char :=
  ((cs.dropWhile isWs).reverse.dropWhile isWs).reverse

/-- Prepend a character to the first piece of a split result. -/
def consHead (c : Char) : List (List Char) → List (List Char)
  | [] => [[c]]
  | t :: ts => (c :: t) :: ts

/-- JS `text.split(/\s+/)`: split at each maximal run of whitespace
(keeping the empty pieces JS produces at a leading or trailing run, and
yielding `[""]` on the empty string). -/
def splitWs : List Char → List (List Char)
  | [] => [[]]
  | c :: cs =>
    if isWs c then
      match cs with
      | [] => [[], []]
      | c2 :: _ => if isWs c2 then splitWs cs else [] :: splitWs cs
    else consHead c (splitWs cs)

/-- JS `.filter(w => w.length > 0)` over the split pieces. -/
def keepNonEmpty (l : List (List Char)) : List (List Char) :=
  l.filter (fun w => w.length > 0)

/-- Embedding of the word count:
`text.trim().split(/\s+/).filter(w => w.length > 0).length`. -/
def wordCount (text : String) : Nat :=
  (keepNonEmpty (splitWs (jsTrim text.data))).length

/-- Embedding of `Math.ceil(words / 200)` on a natural count. -/
def readingTime (words : Nat) : Nat := (words + 199) / 200

/-- Token counter from the claim's wording: the number of maximal
non-whitespace runs, scanning left to right (`inWord` records whether
the previous character belonged to a word). -/
def countTokensAux : Bool → List Char → Nat
  | _, [] => 0
  | inWord, c :: cs =>
    if isWs c then countTokensAux false cs
    else (if inWord then 0 else 1) + countTokensAux true cs

/-- Specification word count: the number of non-empty maximal
whitespace-separated tokens of the text. -/
def specWordCount (text : String) : Nat := countTokensAux false text.data

/-- `editorRef.current.innerText` of a document whose block payloads are
plain text: the texts separated by line breaks. -/
def innerTextDoc : List Block → String
  | [] => ""
  | [b] => b.inner
  | b :: rest => b.inner ++ "\n" ++ innerTextDoc rest

/-- The split result is never the empty list. -/
theorem splitWs_ne_nil (cs : List Char) : splitWs cs ≠ [] := by
  match cs with
  | [] => simp [splitWs]
  | c :: cs' =>
    by_cases hc : isWs c
    · match cs' with
      | [] => simp [splitWs, hc]
      | c2 :: rest =>
        by_cases hc2 : isWs c2
        · simpa [splitWs, hc, hc2] using splitWs_ne_nil (c2 :: rest)
        · simp [splitWs, hc, hc2]
    · cases h : splitWs cs' with
      | nil => simp [splitWs, hc, h, consHead]
      | cons t ts => simp [splitWs, hc, h, consHead]

/-- Dropping leading whitespace does not change the token count. -/
theorem countTokens_dropWhile (l : List Char) :
    countTokensAux false (l.dropWhile isWs) = countTokensAux false l := by
  induction l with
  | nil => rfl
  | cons c l ih =>
    by_cases hc : isWs c
    · rw [List.dropWhile_cons_of_pos hc]
      rw [ih]
      simp [countTokensAux, hc]
    · rw [List.dropWhile_cons_of_neg hc]

/-- An all-whitespace list holds no token. -/
theorem countTokens_allWs (tr : List Char) (h : ∀ c ∈ tr, isWs c = true) (b : Bool) :
    countTokensAux b tr = 0 := by
  induction tr generalizing b with
  | nil => rfl
  | cons c tr ih =>
    have hc : isWs c = true := h c (List.mem_cons_self c tr)
    simp only [countTokensAux, hc, if_true]
    exact ih (fun x hx => h x (List.mem_cons_of_mem c hx)) false

/-- Appending trailing whitespace does not change the token count. -/
theorem countTokens_append_ws (l tr : List Char) (h : ∀ c ∈ tr, isWs c = true) :
    ∀ b, countTokensAux b (l ++ tr) = countTokensAux b l := by
  induction l with
  | nil =>
    intro b
    simpa [countTokensAux] using countTokens_allWs tr h b
  | cons c l ih =>
    intro b
    by_cases hc : isWs c <;> simp [countTokensAux, hc, ih]

/-- Trimming does not change the token count. -/
theorem countTokens_jsTrim (cs : List Char) :
    countTokensAux false (jsTrim cs) = countTokensAux false cs := by
  set d := cs.dropWhile isWs with hd
  have hsplit : d = jsTrim cs ++ (d.reverse.takeWhile isWs).reverse := by
    unfold jsTrim
    rw [← hd]
    conv_lhs => rw [← d.reverse_reverse]
    rw [← List.reverse_append]
    congr 1
    exact (List.takeWhile_append_dropWhile (p := isWs) (l := d.reverse)).symm
  have htr : ∀ c ∈ (d.reverse.takeWhile isWs).reverse, isWs c = true := by
    intro c hc
    rw [List.mem_reverse] at hc
    exact List.mem_takeWhile_imp hc
  calc countTokensAux false (jsTrim cs)
      = countTokensAux false (jsTrim cs ++ (d.reverse.takeWhile isWs).reverse) :=
        (countTokens_append_ws (jsTrim cs) _ htr false).symm
    _ = countTokensAux false d := by rw [← hsplit]
    _ = countTokensAux false cs := countTokens_dropWhile cs

/-- The empty piece is dropped by the filter. -/
theorem keepNonEmpty_nilHead (L : List (List Char)) :
    keepNonEmpty ([] :: L) = keepNonEmpty L := by
  simp [keepNonEmpty]

/-- A non-empty piece is kept by the filter. -/
theorem keepNonEmpty_consHead (c : Char) (t : List Char) (ts : List (List Char)) :
    keepNonEmpty ((c :: t) :: ts) = (c :: t) :: keepNonEmpty ts := by
  simp [keepNonEmpty]

/-- The split-filter-count of the stats effect agrees with the
left-to-right token counter, together with the same fact for the tail of
the split (the pieces after the current word). -/
theorem splitWs_count (cs : List Char) :
    (keepNonEmpty (splitWs cs)).length = countTokensAux false cs
    ∧ (keepNonEmpty ((splitWs cs).tail)).length = countTokensAux true cs := by
  induction cs with
  | nil => exact ⟨rfl, rfl⟩
  | cons c cs ih =>
    by_cases hc : isWs c
    · match cs with
      | [] =>
        constructor
        · rw [show splitWs [c] = [[], []] by simp [splitWs, hc]]
          rw [keepNonEmpty_nilHead, keepNonEmpty_nilHead]
          simp [keepNonEmpty, countTokensAux, hc]
        · rw [show splitWs [c] = [[], []] by simp [splitWs, hc]]
          rw [List.tail_cons, keepNonEmpty_nilHead]
          simp [keepNonEmpty, countTokensAux, hc]
      | c2 :: rest =>
        by_cases hc2 : isWs c2
        · have hstep : splitWs (c :: c2 :: rest) = splitWs (c2 :: rest) := by
            simp [splitWs, hc, hc2]
          constructor
          · rw [hstep, ih.1]
            simp [countTokensAux, hc, hc2]
          · rw [hstep, ih.2]
            simp [countTokensAux, hc, hc2]
        · have hstep : splitWs (c :: c2 :: rest) = [] :: splitWs (c2 :: rest) := by
            simp [splitWs, hc, hc2]
          constructor
          · rw [hstep, keepNonEmpty_nilHead, ih.1]
            simp [countTokensAux, hc]
          · rw [hstep, List.tail_cons, ih.1]
            simp [countTokensAux, hc]
    · obtain ⟨t, ts, hsp⟩ : ∃ t ts, splitWs cs = t :: ts := by
        cases h : splitWs cs with
        | nil => exact absurd h (splitWs_ne_nil cs)
        | cons t ts => exact ⟨t, ts, rfl⟩
      have hstep : splitWs (c :: cs) = (c :: t) :: ts := by
        simp [splitWs, hc, hsp, consHead]
      have hts : keepNonEmpty ts = keepNonEmpty (splitWs cs).tail := by
        rw [hsp, List.tail_cons]
      constructor
      · rw [hstep, keepNonEmpty_consHead, List.length_cons, hts, ih.2]
        simp only [countTokensAux, hc, if_neg, Bool.false_eq_true, if_false]
        omega
      · rw [hstep, List.tail_cons, hts, ih.2]
        simp [countTokensAux, hc]

/-- **C9.** The computed word count equals the number of non-empty
maximal whitespace-separated tokens of the plain text; the reading time
is the word count divided by 200 rounded up (0 for 0 words, and for a
positive count `w` the unique `rt` with `200·(rt−1) < w ≤ 200·rt`); the
document `"<p>one two three</p>"` yields word count 3 and reading time
1. -/
theorem word_count_rule (text : String) (w : Nat) :
    (wordCount text = specWordCount text)
    ∧ (w = 0 → readingTime w = 0)
    ∧ (0 < w → 200 * (readingTime w - 1) < w ∧ w ≤ 200 * readingTime w)
    ∧ wordCount (innerTextDoc [⟨0, "p", "one two three"⟩]) = 3
    ∧ readingTime (wordCount (innerTextDoc [⟨0, "p", "one two three"⟩])) = 1 := by
  refine ⟨?_, ?_, ?_, by decide, by decide⟩
  · unfold wordCount specWordCount
    rw [(splitWs_count (jsTrim text.data)).1, countTokens_jsTrim]
  · intro h
    subst h
    decide
  · intro hw
    unfold readingTime
    have h := Nat.div_add_mod (w + 199) 200
    have hm : (w + 199) % 200 < 200 := Nat.mod_lt _ (by norm_num)
    omega

/-- Witness for C9: the rule applied at word count 3. -/
theorem word_count_rule_witness :
    200 * (readingTime 3 - 1) < 3 ∧ 3 ≤ 200 * readingTime 3 :=
  (word_count_rule ("") 3).2.2.1 (by decide)

end RichEditor
